import Mathlib

/-
Shallow embedding of src/app.py (LemmaAnalyzerApp).

The program analyzes Cyrillic text: it tokenizes with the regular expression
WORD_RE = [А-Яа-яЁё]+(?:-[А-Яа-яЁё]+)*, maps each token to a (lemma, POS) pair
through one of two morphological backends (a Stanza pipeline chosen at startup,
or a pymorphy dictionary fallback), normalizes native tags through the fixed
tables UD_POS_RU / PYMORPHY_POS_RU, aggregates occurrences per lemma, and
derives per-POS frequency coefficients.

The two backends themselves (the Stanza pipeline and pymorphy's parse) are
external libraries; they are modelled as parameters: the pipeline as a
function from the text to the emitted word list, the dictionary as a function
from a token to its first parse.  Strings are manipulated through their
underlying character lists so that every definition evaluates by kernel
reduction.
-/

/-- The character class [А-Яа-яЁё] of WORD_RE (src/app.py line 15). -/
def isCyr (c : Char) : Bool :=
  (0x410 ≤ c.toNat && c.toNat ≤ 0x44F) || c.toNat == 0x401 || c.toNat == 0x451

/-- Split a character list on the hyphen separator (every occurrence). -/
def splitHyph : List Char → List (List Char)
  | [] => [[]]
  | c :: cs =>
    if c = '-' then [] :: splitHyph cs
    else
      match splitHyph cs with
      | [] => [[c]]
      | s :: rest => (c :: s) :: rest

/-- WORD_RE.fullmatch: the whole string is hyphen-separated nonempty runs of
Cyrillic letters, i.e. matches [А-Яа-яЁё]+(?:-[А-Яа-яЁё]+)* completely. -/
def wordFullmatch (s : String) : Bool :=
  (splitHyph s.data).all (fun seg => !seg.isEmpty && seg.all isCyr)

/-- Longest prefix of Cyrillic letters, with the remaining characters. -/
def cyrRun : List Char → List Char × List Char
  | [] => ([], [])
  | c :: cs =>
    if isCyr c then
      let p := cyrRun cs
      (c :: p.1, p.2)
    else ([], c :: cs)

/-- Greedy match of the (?:-[А-Яа-яЁё]+)* tail of WORD_RE, fuelled by the
input length. -/
def hyphTail : Nat → List Char → List Char × List Char
  | 0, l => ([], l)
  | fuel + 1, l =>
    match l with
    | '-' :: cs =>
      let p := cyrRun cs
      if p.1.isEmpty then ([], l)
      else
        let q := hyphTail fuel p.2
        ('-' :: (p.1 ++ q.1), q.2)
    | _ => ([], l)

/-- Greedy match of WORD_RE anchored at the start of the list. -/
def matchWordAt (l : List Char) : Option (List Char × List Char) :=
  let p := cyrRun l
  if p.1.isEmpty then none
  else
    let q := hyphTail l.length p.2
    some (p.1 ++ q.1, q.2)

/-- WORD_RE.finditer: scan left to right, emitting each leftmost match and
continuing after it (src/app.py line 227). -/
def findWordsAux : Nat → List Char → List String
  | 0, _ => []
  | _, [] => []
  | fuel + 1, c :: cs =>
    match matchWordAt (c :: cs) with
    | some (w, rest) => (⟨w⟩ : String) :: findWordsAux fuel rest
    | none => findWordsAux fuel cs

/-- All WORD_RE matches of a string, in order of appearance. -/
def findWords (s : String) : List String :=
  findWordsAux (s.data.length + 1) s.data

/-- Python str.lower restricted to the alphabets in play: Cyrillic А-Я and Ё
are mapped to their lowercase partners, ASCII through Char.toLower, anything
else kept. -/
def ruLower (c : Char) : Char :=
  if 0x410 ≤ c.toNat && c.toNat ≤ 0x42F then Char.ofNat (c.toNat + 0x20)
  else if c.toNat == 0x401 then 'ё'
  else c.toLower

/-- str.lower on a whole string. -/
def pyLower (s : String) : String := ⟨s.data.map ruLower⟩

/-- Python `a or b` for an optional string `a`: both None and the empty
string fall through to `b` (src/app.py line 217). -/
def pyOr (a : Option String) (b : String) : String :=
  match a with
  | some s => if s = "" then b else s
  | none => b

/-- Python str.strip: drop leading and trailing whitespace. -/
def pyStrip (s : String) : String :=
  ⟨((s.data.dropWhile Char.isWhitespace).reverse.dropWhile Char.isWhitespace).reverse⟩

/-- First-match association-list lookup, i.e. Python dict access on the
insertion-ordered pair list. -/
def lookupA {α : Type} (k : String) : List (String × α) → Option α
  | [] => none
  | p :: ps => if p.1 = k then some p.2 else lookupA k ps

/-- UD_POS_RU (src/app.py lines 16-33): universal-dependency tags of the
statistical backend to Russian labels. -/
def UD_POS_RU : List (String × String) :=
  [("ADJ", "Прилагательное"),
   ("ADP", "Предлог"),
   ("ADV", "Наречие"),
   ("AUX", "Вспомогательный глагол"),
   ("CCONJ", "Сочинительный союз"),
   ("DET", "Определитель"),
   ("INTJ", "Междометие"),
   ("NOUN", "Существительное"),
   ("NUM", "Числительное"),
   ("PART", "Частица"),
   ("PRON", "Местоимение"),
   ("PROPN", "Имя собственное"),
   ("SCONJ", "Подчинительный союз"),
   ("SYM", "Символ"),
   ("VERB", "Глагол"),
   ("X", "Другое")]

/-- PYMORPHY_POS_RU (src/app.py lines 34-52): pymorphy tags of the dictionary
backend to Russian labels. -/
def PYMORPHY_POS_RU : List (String × String) :=
  [("NOUN", "Существительное"),
   ("ADJF", "Прилагательное"),
   ("ADJS", "Краткое прилагательное"),
   ("COMP", "Сравнительная степень"),
   ("VERB", "Глагол"),
   ("INFN", "Инфинитив"),
   ("PRTF", "Причастие"),
   ("PRTS", "Краткое причастие"),
   ("GRND", "Деепричастие"),
   ("NUMR", "Числительное"),
   ("ADVB", "Наречие"),
   ("NPRO", "Местоимение"),
   ("PRED", "Предикатив"),
   ("PREP", "Предлог"),
   ("CONJ", "Союз"),
   ("PRCL", "Частица"),
   ("INTJ", "Междометие")]

/-- UD_POS_RU.get(word.upos or "", "Неизвестно") (src/app.py line 218). -/
def normalizeUD (upos : Option String) : String :=
  (lookupA (upos.getD "") UD_POS_RU).getD "Неизвестно"

/-- PYMORPHY_POS_RU.get(parse.tag.POS, "Неизвестно") with a possibly missing
tag (src/app.py line 231). -/
def normalizePymorphy (pos : Option String) : String :=
  match pos with
  | some t => (lookupA t PYMORPHY_POS_RU).getD "Неизвестно"
  | none => "Неизвестно"

/-- A word emitted by the Stanza pipeline: its surface text, lemma and
universal POS tag (the latter two may be missing).  The source field `lemma`
is rendered `lemma0`, `lemma` being a Lean keyword. -/
structure StanzaWord where
  text : String
  lemma0 : Option String
  upos : Option String
deriving DecidableEq, Repr

/-- The first pymorphy parse of a token: MorphAnalyzer.parse(token)[0],
keeping its normal_form and tag.POS (src/app.py lines 229-231). -/
structure MorphParse where
  normal_form : String
  pos : Option String
deriving DecidableEq, Repr

/-- The LemmaEntry dataclass (src/app.py lines 55-59); the source field
`lemma` is rendered `lemma0`. -/
structure LemmaEntry where
  lemma0 : String
  count : Nat
  forms : List (String × String)
deriving DecidableEq, Repr

/-- The four accumulators of the analysis loop (src/app.py lines 205-209):
insertion-ordered dictionaries as pair lists, plus the running total. -/
structure AggState where
  lemma_counts : List (String × Nat)
  lemma_forms : List (String × List (String × String))
  pos_counts : List (String × Nat)
  total_words : Nat
deriving DecidableEq, Repr

def AggState.init : AggState := ⟨[], [], [], 0⟩

/-- defaultdict(int) increment: bump the first binding of the key, or append
the key with count 1. -/
def bump (k : String) : List (String × Nat) → List (String × Nat)
  | [] => [(k, 1)]
  | p :: ps => if p.1 = k then (p.1, p.2 + 1) :: ps else p :: bump k ps

/-- The guarded form insertion (src/app.py lines 222-223 and 235-236):
`if form_key not in lemma_forms[lemma]: lemma_forms[lemma][form_key] = pos`,
with defaultdict(dict) creating the per-lemma dictionary on first access. -/
def insertForm (lem form pos : String) :
    List (String × List (String × String)) → List (String × List (String × String))
  | [] => [(lem, [(form, pos)])]
  | p :: ps =>
    if p.1 = lem then
      if (lookupA form p.2).isSome then p :: ps
      else (p.1, p.2 ++ [(form, pos)]) :: ps
    else p :: insertForm lem form pos ps

/-- One iteration of the Stanza loop body (src/app.py lines 214-225): skip
words failing WORD_RE.fullmatch, otherwise update all four accumulators. -/
def stanzaStep (a : AggState) (w : StanzaWord) : AggState :=
  if wordFullmatch w.text then
    let lem := pyLower (pyOr w.lemma0 w.text)
    let pos_label := normalizeUD w.upos
    let form_key := pyLower w.text
    { lemma_counts := bump lem a.lemma_counts
      lemma_forms := insertForm lem form_key pos_label a.lemma_forms
      pos_counts := bump pos_label a.pos_counts
      total_words := a.total_words + 1 }
  else a

/-- One iteration of the pymorphy loop body (src/app.py lines 227-238). -/
def dictStep (morph : String → MorphParse) (a : AggState) (token : String) : AggState :=
  let parse := morph token
  let lem := parse.normal_form
  let pos_label := normalizePymorphy parse.pos
  let form_key := pyLower token
  { lemma_counts := bump lem a.lemma_counts
    lemma_forms := insertForm lem form_key pos_label a.lemma_forms
    pos_counts := bump pos_label a.pos_counts
    total_words := a.total_words + 1 }

/-- Python string < on the underlying characters (codepoint lexicographic). -/
def strLtB : List Char → List Char → Bool
  | [], [] => false
  | [], _ :: _ => true
  | _ :: _, [] => false
  | a :: as, b :: bs => if a < b then true else if b < a then false else strLtB as bs

/-- Insertion step of sorting the lemma dictionary items by key. -/
def insertByKey (p : String × Nat) : List (String × Nat) → List (String × Nat)
  | [] => [p]
  | q :: qs => if strLtB q.1.data p.1.data then q :: insertByKey p qs else p :: q :: qs

/-- sorted(lemma_counts.items()) (src/app.py line 240): the keys are distinct,
so sorting the pairs is sorting by key. -/
def sortByKey : List (String × Nat) → List (String × Nat)
  | [] => []
  | p :: ps => insertByKey p (sortByKey ps)

/-- Build the final LemmaEntry list (src/app.py lines 240-244): one entry per
lemma in sorted order, carrying its count and its forms dictionary. -/
def finalizeEntries (agg : AggState) : List LemmaEntry :=
  (sortByKey agg.lemma_counts).map
    (fun p => ⟨p.1, p.2, (lookupA p.1 agg.lemma_forms).getD []⟩)

/-- The mutable fields of LemmaAnalyzerApp that the analysis reads and
writes: the pymorphy analyzer, the optional Stanza pipeline, and the three
result fields (src/app.py lines 66-70). -/
structure AppState where
  morph : String → MorphParse
  nlp : Option (String → List StanzaWord)
  entries : List LemmaEntry
  pos_counts : List (String × Nat)
  total_words : Nat

/-- The two ways analyze returns: the "Нет текста" info box, or a completed
run. -/
inductive AnalyzeOutcome where
  | noText
  | completed
deriving DecidableEq, Repr

/-- The backend aggregation of analyze (src/app.py lines 211-238): the Stanza
branch folds over the words the pipeline emits, the fallback branch folds over
the WORD_RE matches. -/
def runAgg (st : AppState) (text : String) : AggState :=
  match st.nlp with
  | some pipe => (pipe text).foldl stanzaStep AggState.init
  | none => (findWords text).foldl (dictStep st.morph) AggState.init

/-- LemmaAnalyzerApp.analyze (src/app.py lines 199-248): strip the input,
report "Нет текста" when nothing remains (leaving the state untouched),
otherwise aggregate and replace entries, pos_counts and total_words. -/
def LemmaAnalyzerApp.analyze (st : AppState) (input : String) : AppState × AnalyzeOutcome :=
  let text := pyStrip input
  if text = "" then (st, AnalyzeOutcome.noText)
  else
    let agg := runAgg st text
    ({ st with entries := finalizeEntries agg
               pos_counts := agg.pos_counts
               total_words := agg.total_words }, AnalyzeOutcome.completed)

/-- LemmaAnalyzerApp.show_pos_coefficients (src/app.py lines 250-260): none
models the "Нет данных" info box; otherwise the coefficient table
pos ↦ count / total_words, as exact rationals. -/
def LemmaAnalyzerApp.show_pos_coefficients (st : AppState) : Option (List (String × ℚ)) :=
  if st.pos_counts = [] ∨ st.total_words = 0 then none
  else some (st.pos_counts.map (fun p => (p.1, (p.2 : ℚ) / (st.total_words : ℚ))))

/-- The outcome of the one-time Stanza initialization attempt: a working
pipeline, or the exception message of whatever failed. -/
inductive StanzaInit where
  | ok (pipe : String → List StanzaWord)
  | error (msg : String)

/-- LemmaAnalyzerApp._init_stanza (src/app.py lines 150-182): on success the
pipeline is kept, on any exception a warning carrying the detail is shown
and None is returned. -/
def LemmaAnalyzerApp.init_stanza :
    StanzaInit → Option (String → List StanzaWord) × Option String
  | StanzaInit.ok pipe => (some pipe, none)
  | StanzaInit.error msg =>
      (none,
       some ("Не удалось загрузить модель Stanza. Будет использован базовый анализ.\n" ++ msg))

/-- LemmaAnalyzerApp.__init__ (src/app.py lines 63-70): backend chosen once,
result fields empty; the second component is the startup warning, if any. -/
def LemmaAnalyzerApp.init (morph : String → MorphParse) (attempt : StanzaInit) :
    AppState × Option String :=
  let r := LemmaAnalyzerApp.init_stanza attempt
  ({ morph := morph, nlp := r.1, entries := [], pos_counts := [], total_words := 0 }, r.2)

/-- One normalized stream element consumed by the aggregation: the lemma key,
the normalized POS label, and the lowercase surface form. -/
structure AggItem where
  lemma0 : String
  posLabel : String
  formKey : String
deriving DecidableEq, Repr

/-- The common accumulator update both loop bodies perform on an accepted
word (src/app.py lines 221-225 and 234-238). -/
def aggStep (a : AggState) (it : AggItem) : AggState :=
  { lemma_counts := bump it.lemma0 a.lemma_counts
    lemma_forms := insertForm it.lemma0 it.formKey it.posLabel a.lemma_forms
    pos_counts := bump it.posLabel a.pos_counts
    total_words := a.total_words + 1 }

/-- The stream element a Stanza word contributes, none when it fails the
WORD_RE re-validation. -/
def stanzaItem (w : StanzaWord) : Option AggItem :=
  if wordFullmatch w.text then
    some ⟨pyLower (pyOr w.lemma0 w.text), normalizeUD w.upos, pyLower w.text⟩
  else none

/-- The stream element a WORD_RE token contributes in the fallback branch. -/
def dictItem (morph : String → MorphParse) (t : String) : AggItem :=
  ⟨(morph t).normal_form, normalizePymorphy (morph t).pos, pyLower t⟩

/-- The normalized (lemma, POS, form) stream of one analysis run. -/
def streamItems (st : AppState) (text : String) : List AggItem :=
  match st.nlp with
  | some pipe => (pipe text).filterMap stanzaItem
  | none => (findWords text).map (dictItem st.morph)

/-- Sum of the counts of an insertion-ordered counter. -/
def valsSum (l : List (String × Nat)) : Nat := (l.map Prod.snd).sum

/-- Sum of the per-lemma counts over the final entry list. -/
def entriesCountSum (es : List LemmaEntry) : Nat := (es.map LemmaEntry.count).sum

/-- The POS label of the first stream element carrying a given lemma and
surface form, if any. -/
def firstPos (items : List AggItem) (lem form : String) : Option String :=
  (items.find? (fun it => it.lemma0 == lem && it.formKey == form)).map AggItem.posLabel

/-- How many stream elements carry a given lemma. -/
def occCount (items : List AggItem) (lem : String) : Nat :=
  items.countP (fun it => it.lemma0 == lem)

/-- Left-biased choice on options (Python dict-style fallthrough). -/
def optOr {α : Type} : Option α → Option α → Option α
  | some a, _ => some a
  | none, b => b

theorem optOr_none_left {α : Type} (b : Option α) : optOr none b = b := rfl

theorem optOr_none_right {α : Type} (a : Option α) : optOr a none = a := by
  cases a <;> rfl

theorem valsSum_nil : valsSum [] = 0 := rfl

theorem valsSum_cons (p : String × Nat) (ps : List (String × Nat)) :
    valsSum (p :: ps) = p.2 + valsSum ps := by
  simp [valsSum]

theorem lookupA_append {α : Type} (k : String) (l1 l2 : List (String × α)) :
    lookupA k (l1 ++ l2) = optOr (lookupA k l1) (lookupA k l2) := by
  induction l1 with
  | nil => simp [lookupA, optOr]
  | cons p ps ih =>
    by_cases h : p.1 = k <;> simp [lookupA, h, ih, optOr]

theorem lookupA_of_mem_nodup {α : Type} (l : List (String × α)) (p : String × α)
    (hm : p ∈ l) (hn : (l.map Prod.fst).Nodup) : lookupA p.1 l = some p.2 := by
  induction l with
  | nil => cases hm
  | cons q qs ih =>
    simp only [List.map_cons, List.nodup_cons] at hn
    rcases List.mem_cons.mp hm with h | h
    · subst h; simp [lookupA]
    · have hq : q.1 ≠ p.1 := by
        intro he
        exact hn.1 (he ▸ List.mem_map_of_mem Prod.fst h)
      simp [lookupA, hq, ih h hn.2]

theorem bump_vals (k : String) (l : List (String × Nat)) :
    valsSum (bump k l) = valsSum l + 1 := by
  induction l with
  | nil => simp [bump, valsSum]
  | cons p ps ih =>
    by_cases h : p.1 = k <;>
      simp only [bump, h, if_true, if_false, valsSum_cons, ih] <;> omega

theorem bump_lookup_self (k : String) (l : List (String × Nat)) :
    lookupA k (bump k l) = some ((lookupA k l).getD 0 + 1) := by
  induction l with
  | nil => simp [bump, lookupA]
  | cons p ps ih =>
    by_cases h : p.1 = k
    · simp [bump, h, lookupA]
    · simp [bump, h, lookupA, ih]

theorem bump_lookup_ne (k k' : String) (l : List (String × Nat)) (h : k' ≠ k) :
    lookupA k' (bump k l) = lookupA k' l := by
  have hk : ¬ (k = k') := fun he => h he.symm
  induction l with
  | nil => simp [bump, lookupA, hk]
  | cons p ps ih =>
    by_cases hp : p.1 = k
    · simp [bump, hp, lookupA, hk]
    · by_cases hp' : p.1 = k' <;> simp [bump, hp, lookupA, hp', ih, h]

theorem bump_keys (k : String) (l : List (String × Nat)) :
    (bump k l).map Prod.fst =
      if k ∈ l.map Prod.fst then l.map Prod.fst else l.map Prod.fst ++ [k] := by
  induction l with
  | nil => simp [bump]
  | cons p ps ih =>
    by_cases h : p.1 = k
    · simp [bump, h]
    · have : k ≠ p.1 := fun he => h he.symm
      by_cases hm : k ∈ ps.map Prod.fst <;> simp [bump, h, ih, hm, this]

theorem bump_nodup (k : String) (l : List (String × Nat))
    (h : (l.map Prod.fst).Nodup) : ((bump k l).map Prod.fst).Nodup := by
  rw [bump_keys]
  by_cases hm : k ∈ l.map Prod.fst
  · simpa [hm]
  · simp [hm, List.nodup_append, h]

theorem bump_mem_pos (k : String) (l : List (String × Nat))
    (h : ∀ p ∈ l, 0 < p.2) : ∀ p ∈ bump k l, 0 < p.2 := by
  induction l with
  | nil =>
    intro p hp
    simp [bump] at hp
    simp [hp]
  | cons q qs ih =>
    intro p hp
    by_cases hq : q.1 = k
    · simp only [bump, hq, if_true] at hp
      rcases List.mem_cons.mp hp with h1 | h1
      · subst h1; exact Nat.succ_pos q.2
      · exact h p (List.mem_cons_of_mem q h1)
    · simp only [bump, hq, if_false] at hp
      rcases List.mem_cons.mp hp with h1 | h1
      · subst h1; exact h p (List.mem_cons_self p qs)
      · exact ih (fun q' hq' => h q' (List.mem_cons_of_mem q hq')) p h1

theorem insertForm_lookup_self (lem form pos : String)
    (fs : List (String × List (String × String))) :
    lookupA form ((lookupA lem (insertForm lem form pos fs)).getD []) =
      some ((lookupA form ((lookupA lem fs).getD [])).getD pos) := by
  induction fs with
  | nil => simp [insertForm, lookupA]
  | cons p ps ih =>
    by_cases hp : p.1 = lem
    · by_cases hf : (lookupA form p.2).isSome
      · obtain ⟨v, hv⟩ := Option.isSome_iff_exists.mp hf
        simp [insertForm, hp, hf, lookupA, hv]
      · have hnone : lookupA form p.2 = none := Option.not_isSome_iff_eq_none.mp hf
        simp [insertForm, hp, hf, lookupA, lookupA_append, hnone, optOr]
    · simp [insertForm, hp, lookupA, ih]

theorem insertForm_lookup_ne_lem (lem form pos lem' : String)
    (fs : List (String × List (String × String))) (h : lem' ≠ lem) :
    lookupA lem' (insertForm lem form pos fs) = lookupA lem' fs := by
  have hk : ¬ (lem = lem') := fun he => h he.symm
  induction fs with
  | nil => simp [insertForm, lookupA, hk]
  | cons p ps ih =>
    by_cases hp : p.1 = lem
    · have h1 : ¬ (p.1 = lem') := by rw [hp]; exact hk
      by_cases hf : (lookupA form p.2).isSome <;>
        simp [insertForm, hp, hf, lookupA, h1, hk]
    · by_cases hp' : p.1 = lem' <;> simp [insertForm, hp, lookupA, hp', ih, h]

theorem insertForm_lookup_ne_form (lem form pos form' : String)
    (fs : List (String × List (String × String))) (h : form' ≠ form) :
    lookupA form' ((lookupA lem (insertForm lem form pos fs)).getD []) =
      lookupA form' ((lookupA lem fs).getD []) := by
  have hk : ¬ (form = form') := fun he => h he.symm
  induction fs with
  | nil => simp [insertForm, lookupA, hk]
  | cons p ps ih =>
    by_cases hp : p.1 = lem
    · by_cases hf : (lookupA form p.2).isSome
      · simp [insertForm, hp, hf, lookupA]
      · simp [insertForm, hp, hf, lookupA, lookupA_append, hk, optOr_none_right]
    · simp [insertForm, hp, lookupA, ih]

theorem insertForm_len_self (lem form pos : String)
    (fs : List (String × List (String × String))) :
    ((lookupA lem (insertForm lem form pos fs)).getD []).length ≤
      ((lookupA lem fs).getD []).length + 1 := by
  induction fs with
  | nil => simp [insertForm, lookupA]
  | cons p ps ih =>
    by_cases hp : p.1 = lem
    · by_cases hf : (lookupA form p.2).isSome <;> simp [insertForm, hp, hf, lookupA]
    · simp [insertForm, hp, lookupA, ih]

theorem aggStep_total (a : AggState) (it : AggItem) :
    (aggStep a it).total_words = a.total_words + 1 := rfl

theorem fold_total (items : List AggItem) (a : AggState) :
    (items.foldl aggStep a).total_words = a.total_words + items.length := by
  induction items generalizing a with
  | nil => simp
  | cons it rest ih =>
    simp only [List.foldl_cons, ih, aggStep_total, List.length_cons]
    omega

theorem fold_lemma_vals (items : List AggItem) (a : AggState) :
    valsSum ((items.foldl aggStep a).lemma_counts) = valsSum a.lemma_counts + items.length := by
  induction items generalizing a with
  | nil => simp
  | cons it rest ih =>
    have hs : valsSum ((aggStep a it).lemma_counts) = valsSum a.lemma_counts + 1 :=
      bump_vals it.lemma0 a.lemma_counts
    simp only [List.foldl_cons, ih, hs, List.length_cons]
    omega

theorem fold_pos_vals (items : List AggItem) (a : AggState) :
    valsSum ((items.foldl aggStep a).pos_counts) = valsSum a.pos_counts + items.length := by
  induction items generalizing a with
  | nil => simp
  | cons it rest ih =>
    have hs : valsSum ((aggStep a it).pos_counts) = valsSum a.pos_counts + 1 :=
      bump_vals it.posLabel a.pos_counts
    simp only [List.foldl_cons, ih, hs, List.length_cons]
    omega

theorem fold_pos_pos (items : List AggItem) (a : AggState)
    (h : ∀ p ∈ a.pos_counts, 0 < p.2) :
    ∀ p ∈ (items.foldl aggStep a).pos_counts, 0 < p.2 := by
  induction items generalizing a with
  | nil => exact h
  | cons it rest ih =>
    exact ih (aggStep a it) (bump_mem_pos it.posLabel a.pos_counts h)

theorem fold_nodup (items : List AggItem) (a : AggState)
    (h : (a.lemma_counts.map Prod.fst).Nodup) :
    (((items.foldl aggStep a).lemma_counts).map Prod.fst).Nodup := by
  induction items generalizing a with
  | nil => exact h
  | cons it rest ih =>
    exact ih (aggStep a it) (bump_nodup it.lemma0 a.lemma_counts h)

theorem fold_count (items : List AggItem) (a : AggState) (lem : String) :
    (lookupA lem (items.foldl aggStep a).lemma_counts).getD 0 =
      (lookupA lem a.lemma_counts).getD 0 + occCount items lem := by
  induction items generalizing a with
  | nil => simp [occCount]
  | cons it rest ih =>
    simp only [List.foldl_cons, ih]
    by_cases hl : it.lemma0 = lem
    · have hs : lookupA lem (aggStep a it).lemma_counts =
          some ((lookupA lem a.lemma_counts).getD 0 + 1) := by
        have := bump_lookup_self lem a.lemma_counts
        simpa [aggStep, hl] using this
      simp only [hs, occCount, List.countP_cons]
      simp [hl]
      omega
    · have hs : lookupA lem (aggStep a it).lemma_counts = lookupA lem a.lemma_counts := by
        have := bump_lookup_ne it.lemma0 lem a.lemma_counts (fun he => hl he.symm)
        simpa [aggStep] using this
      simp only [hs, occCount, List.countP_cons]
      simp [hl]

theorem fold_firstPos (items : List AggItem) (a : AggState) (lem form : String) :
    lookupA form ((lookupA lem (items.foldl aggStep a).lemma_forms).getD []) =
      optOr (lookupA form ((lookupA lem a.lemma_forms).getD []))
        (firstPos items lem form) := by
  induction items generalizing a with
  | nil => simp [firstPos, optOr_none_right]
  | cons it rest ih =>
    simp only [List.foldl_cons, ih]
    by_cases h1 : it.lemma0 = lem
    · by_cases h2 : it.formKey = form
      · have hstep : lookupA form ((lookupA lem (aggStep a it).lemma_forms).getD []) =
            some ((lookupA form ((lookupA lem a.lemma_forms).getD [])).getD it.posLabel) := by
          have := insertForm_lookup_self lem form it.posLabel a.lemma_forms
          simpa [aggStep, h1, h2] using this
        have hfind : firstPos (it :: rest) lem form = some it.posLabel := by
          simp [firstPos, List.find?_cons_of_pos, h1, h2]
        rw [hstep, hfind]
        cases hO : lookupA form ((lookupA lem a.lemma_forms).getD []) <;> simp [optOr]
      · have hstep : lookupA form ((lookupA lem (aggStep a it).lemma_forms).getD []) =
            lookupA form ((lookupA lem a.lemma_forms).getD []) := by
          have := insertForm_lookup_ne_form lem it.formKey it.posLabel form a.lemma_forms
            (fun he => h2 he.symm)
          simpa [aggStep, h1] using this
        have hfind : firstPos (it :: rest) lem form = firstPos rest lem form := by
          have : (it.lemma0 == lem && it.formKey == form) = false := by
            simp [h2]
          simp [firstPos, List.find?_cons_of_neg, this]
        rw [hstep, hfind]
    · have hstep : lookupA form ((lookupA lem (aggStep a it).lemma_forms).getD []) =
          lookupA form ((lookupA lem a.lemma_forms).getD []) := by
        have := insertForm_lookup_ne_lem it.lemma0 it.formKey it.posLabel lem a.lemma_forms
          (fun he => h1 he.symm)
        simp only [aggStep] at *
        rw [this]
      have hfind : firstPos (it :: rest) lem form = firstPos rest lem form := by
        have : (it.lemma0 == lem && it.formKey == form) = false := by
          simp [h1]
        simp [firstPos, List.find?_cons_of_neg, this]
      rw [hstep, hfind]

theorem fold_lenLe (items : List AggItem) (a : AggState)
    (h : ∀ lem, ((lookupA lem a.lemma_forms).getD []).length ≤
      (lookupA lem a.lemma_counts).getD 0) :
    ∀ lem, ((lookupA lem (items.foldl aggStep a).lemma_forms).getD []).length ≤
      (lookupA lem (items.foldl aggStep a).lemma_counts).getD 0 := by
  induction items generalizing a with
  | nil => exact h
  | cons it rest ih =>
    refine ih (aggStep a it) ?_
    intro lem
    by_cases h1 : it.lemma0 = lem
    · have hc : lookupA lem (aggStep a it).lemma_counts =
          some ((lookupA lem a.lemma_counts).getD 0 + 1) := by
        have := bump_lookup_self lem a.lemma_counts
        simpa [aggStep, h1] using this
      have hf : ((lookupA lem (aggStep a it).lemma_forms).getD []).length ≤
          ((lookupA lem a.lemma_forms).getD []).length + 1 := by
        have := insertForm_len_self lem it.formKey it.posLabel a.lemma_forms
        simpa [aggStep, h1] using this
      rw [hc]
      simp only [Option.getD_some]
      exact hf.trans (Nat.succ_le_succ (h lem))
    · have hc : lookupA lem (aggStep a it).lemma_counts = lookupA lem a.lemma_counts := by
        have := bump_lookup_ne it.lemma0 lem a.lemma_counts (fun he => h1 he.symm)
        simpa [aggStep] using this
      have hf : lookupA lem (aggStep a it).lemma_forms = lookupA lem a.lemma_forms := by
        have := insertForm_lookup_ne_lem it.lemma0 it.formKey it.posLabel lem a.lemma_forms
          (fun he => h1 he.symm)
        simpa [aggStep] using this
      rw [hc, hf]
      exact h lem

theorem dictStep_eq (morph : String → MorphParse) (a : AggState) (t : String) :
    dictStep morph a t = aggStep a (dictItem morph t) := rfl

theorem fold_stanza (ws : List StanzaWord) (a : AggState) :
    ws.foldl stanzaStep a = (ws.filterMap stanzaItem).foldl aggStep a := by
  induction ws generalizing a with
  | nil => rfl
  | cons w rest ih =>
    by_cases h : wordFullmatch w.text
    · simp [List.foldl_cons, List.filterMap_cons, stanzaItem, h, ih, stanzaStep, aggStep]
    · simp [List.foldl_cons, List.filterMap_cons, stanzaItem, h, ih, stanzaStep]

theorem fold_dict (morph : String → MorphParse) (ts : List String) (a : AggState) :
    ts.foldl (dictStep morph) a = (ts.map (dictItem morph)).foldl aggStep a := by
  induction ts generalizing a with
  | nil => rfl
  | cons t rest ih => simp [List.foldl_cons, ih, dictStep_eq]

theorem runAgg_eq (st : AppState) (text : String) :
    runAgg st text = (streamItems st text).foldl aggStep AggState.init := by
  cases hn : st.nlp <;> simp [runAgg, streamItems, hn, fold_stanza, fold_dict]

theorem insertByKey_perm (p : String × Nat) (l : List (String × Nat)) :
    (insertByKey p l).Perm (p :: l) := by
  induction l with
  | nil => exact List.Perm.refl _
  | cons q qs ih =>
    by_cases h : strLtB q.1.data p.1.data
    · simp only [insertByKey, h, if_true]
      exact (ih.cons q).trans (List.Perm.swap p q qs)
    · simp only [insertByKey, h, if_false]
      exact List.Perm.refl _

theorem sortByKey_perm (l : List (String × Nat)) : (sortByKey l).Perm l := by
  induction l with
  | nil => exact List.Perm.refl _
  | cons p ps ih => exact (insertByKey_perm p (sortByKey ps)).trans (ih.cons p)

theorem finalize_counts_sum (agg : AggState) :
    entriesCountSum (finalizeEntries agg) = valsSum agg.lemma_counts := by
  unfold entriesCountSum finalizeEntries valsSum
  rw [List.map_map]
  exact ((sortByKey_perm agg.lemma_counts).map Prod.snd).sum_eq

theorem finalize_mem (agg : AggState) (e : LemmaEntry) (h : e ∈ finalizeEntries agg) :
    ∃ p : String × Nat, p ∈ agg.lemma_counts ∧
      e = ⟨p.1, p.2, (lookupA p.1 agg.lemma_forms).getD []⟩ := by
  unfold finalizeEntries at h
  obtain ⟨p, hp, he⟩ := List.mem_map.mp h
  exact ⟨p, (sortByKey_perm agg.lemma_counts).mem_iff.mp hp, he.symm⟩

theorem analyze_of_strip_empty (st : AppState) (input : String) (h : pyStrip input = "") :
    LemmaAnalyzerApp.analyze st input = (st, AnalyzeOutcome.noText) := by
  simp [LemmaAnalyzerApp.analyze, h]

theorem analyze_of_strip_ne (st : AppState) (input : String) (h : ¬ pyStrip input = "") :
    LemmaAnalyzerApp.analyze st input =
      ({ st with entries := finalizeEntries (runAgg st (pyStrip input))
                 pos_counts := (runAgg st (pyStrip input)).pos_counts
                 total_words := (runAgg st (pyStrip input)).total_words },
       AnalyzeOutcome.completed) := by
  simp [LemmaAnalyzerApp.analyze, h]

theorem analyze_completed_strip_ne (st : AppState) (input : String)
    (h : (LemmaAnalyzerApp.analyze st input).2 = AnalyzeOutcome.completed) :
    ¬ pyStrip input = "" := by
  intro he
  rw [analyze_of_strip_empty st input he] at h
  simp at h

theorem analyze_nlp_eq (st : AppState) (input : String) :
    (LemmaAnalyzerApp.analyze st input).1.nlp = st.nlp := by
  by_cases h : pyStrip input = ""
  · rw [analyze_of_strip_empty st input h]
  · rw [analyze_of_strip_ne st input h]

theorem analyze_morph_eq (st : AppState) (input : String) :
    (LemmaAnalyzerApp.analyze st input).1.morph = st.morph := by
  by_cases h : pyStrip input = ""
  · rw [analyze_of_strip_empty st input h]
  · rw [analyze_of_strip_ne st input h]

/-- A concrete dictionary backend for witnesses: every token is its own
lowercased lemma, tagged NOUN. -/
def exMorph : String → MorphParse := fun t => ⟨pyLower t, some "NOUN"⟩

/-- A concrete session state after one earlier analysis, holding non-empty
results, with the dictionary backend active. -/
def exApp : AppState :=
  { morph := exMorph, nlp := none,
    entries := [⟨"кот", 2, [("кот", "Существительное")]⟩],
    pos_counts := [("Существительное", 2)], total_words := 2 }

/-- A concrete freshly initialized session state with empty results. -/
def exAppEmpty : AppState :=
  { morph := exMorph, nlp := none, entries := [], pos_counts := [], total_words := 0 }

/-- C1, counterexample: the input "123" strips to a non-empty string and
contains no WORD_RE token, yet analyze completes — it does not report the
empty-input condition — and replaces the previously stored results with empty
ones. -/
theorem analyze_separator_only_replaces_results :
    findWords (pyStrip "123") = [] ∧
    (LemmaAnalyzerApp.analyze exApp "123").2 = AnalyzeOutcome.completed ∧
    (LemmaAnalyzerApp.analyze exApp "123").1.entries = [] ∧
    (LemmaAnalyzerApp.analyze exApp "123").1.pos_counts = [] ∧
    (LemmaAnalyzerApp.analyze exApp "123").1.total_words = 0 ∧
    exApp.entries ≠ [] ∧ exApp.total_words ≠ 0 := by
  refine ⟨by decide, by decide, by decide, by decide, by decide, by decide, by decide⟩

/-- C1, amended: analyze reports the empty-input condition, with every stored
result untouched, exactly when the input strips to the empty string (it is
empty or whitespace-only); any other input — even one consisting only of
separators — completes a run. -/
theorem analyze_noText_iff_strip_empty (st : AppState) (input : String) :
    ((LemmaAnalyzerApp.analyze st input).2 = AnalyzeOutcome.noText ↔ pyStrip input = "") ∧
    (pyStrip input = "" → LemmaAnalyzerApp.analyze st input = (st, AnalyzeOutcome.noText)) := by
  constructor
  · constructor
    · intro h
      by_contra he
      rw [analyze_of_strip_ne st input he] at h
      simp at h
    · intro h
      rw [analyze_of_strip_empty st input h]
  · intro h
    exact analyze_of_strip_empty st input h

/-- C1, witness for the amended statement at a whitespace-only input. -/
theorem analyze_noText_iff_strip_empty_witness :
    pyStrip " \n " = "" ∧
    LemmaAnalyzerApp.analyze exApp " \n " = (exApp, AnalyzeOutcome.noText) :=
  ⟨by decide, (analyze_noText_iff_strip_empty exApp " \n ").2 (by decide)⟩

/-- C2: after a completed analysis run, the sum of the entry counts and the
sum of the POS summary counts both equal the reported token total. -/
theorem analyze_counts_sum_eq_total (st : AppState) (input : String)
    (h : (LemmaAnalyzerApp.analyze st input).2 = AnalyzeOutcome.completed) :
    entriesCountSum (LemmaAnalyzerApp.analyze st input).1.entries =
      (LemmaAnalyzerApp.analyze st input).1.total_words ∧
    valsSum (LemmaAnalyzerApp.analyze st input).1.pos_counts =
      (LemmaAnalyzerApp.analyze st input).1.total_words := by
  have hne := analyze_completed_strip_ne st input h
  rw [analyze_of_strip_ne st input hne]
  constructor
  · show entriesCountSum (finalizeEntries (runAgg st (pyStrip input))) =
      (runAgg st (pyStrip input)).total_words
    rw [finalize_counts_sum, runAgg_eq, fold_lemma_vals, fold_total]
    rfl
  · show valsSum (runAgg st (pyStrip input)).pos_counts =
      (runAgg st (pyStrip input)).total_words
    rw [runAgg_eq, fold_pos_vals, fold_total]
    rfl

/-- C2, witness at a concrete three-token run. -/
theorem analyze_counts_sum_eq_total_witness :
    (LemmaAnalyzerApp.analyze exApp "Кот и кот").2 = AnalyzeOutcome.completed ∧
    (entriesCountSum (LemmaAnalyzerApp.analyze exApp "Кот и кот").1.entries =
        (LemmaAnalyzerApp.analyze exApp "Кот и кот").1.total_words ∧
      valsSum (LemmaAnalyzerApp.analyze exApp "Кот и кот").1.pos_counts =
        (LemmaAnalyzerApp.analyze exApp "Кот и кот").1.total_words) :=
  ⟨by decide, analyze_counts_sum_eq_total exApp "Кот и кот" (by decide)⟩

/-- C5: the Tag Normalizer returns the table entry for a tag present in the
active backend's table, and "Неизвестно" for a tag absent from it, missing,
or empty (the empty tag is a key of neither table, so it falls under the
absent case). -/
theorem normalize_tables_or_unknown :
    (∀ t v, lookupA t UD_POS_RU = some v → normalizeUD (some t) = v) ∧
    (∀ t, lookupA t UD_POS_RU = none → normalizeUD (some t) = "Неизвестно") ∧
    normalizeUD none = "Неизвестно" ∧
    (∀ t v, lookupA t PYMORPHY_POS_RU = some v → normalizePymorphy (some t) = v) ∧
    (∀ t, lookupA t PYMORPHY_POS_RU = none → normalizePymorphy (some t) = "Неизвестно") ∧
    normalizePymorphy none = "Неизвестно" := by
  refine ⟨?_, ?_, rfl, ?_, ?_, rfl⟩
  · intro t v h; simp [normalizeUD, h]
  · intro t h; simp [normalizeUD, h]
  · intro t v h; simp [normalizePymorphy, h]
  · intro t h; simp [normalizePymorphy, h]

/-- C5, witness: a present tag, an absent tag, and the empty tag, in both
tables. -/
theorem normalize_tables_or_unknown_witness :
    normalizeUD (some "ADJ") = "Прилагательное" ∧
    normalizeUD (some "FOO") = "Неизвестно" ∧
    normalizeUD (some "") = "Неизвестно" ∧
    normalizePymorphy (some "GRND") = "Деепричастие" ∧
    normalizePymorphy (some "") = "Неизвестно" :=
  ⟨normalize_tables_or_unknown.1 "ADJ" "Прилагательное" (by decide),
   normalize_tables_or_unknown.2.1 "FOO" (by decide),
   normalize_tables_or_unknown.2.1 "" (by decide),
   normalize_tables_or_unknown.2.2.2.1 "GRND" "Деепричастие" (by decide),
   normalize_tables_or_unknown.2.2.2.2.1 "" (by decide)⟩

/-- C7: the Statistics Calculator reports the no-data condition exactly when
the summary is empty or the total is zero; whenever it does compute, the
total is positive (so the division count / total never divides by zero) and
the result is the coefficient table. -/
theorem show_pos_coefficients_no_data_iff (st : AppState) :
    (LemmaAnalyzerApp.show_pos_coefficients st = none ↔
      st.pos_counts = [] ∨ st.total_words = 0) ∧
    (∀ cs, LemmaAnalyzerApp.show_pos_coefficients st = some cs →
      0 < st.total_words ∧
      cs = st.pos_counts.map (fun p => (p.1, (p.2 : ℚ) / (st.total_words : ℚ)))) := by
  constructor
  · constructor
    · intro hn
      by_contra hcond
      simp [LemmaAnalyzerApp.show_pos_coefficients, hcond] at hn
    · intro hcond
      simp [LemmaAnalyzerApp.show_pos_coefficients, hcond]
  · intro cs hcs
    by_cases hcond : st.pos_counts = [] ∨ st.total_words = 0
    · simp [LemmaAnalyzerApp.show_pos_coefficients, hcond] at hcs
    · push_neg at hcond
      simp [LemmaAnalyzerApp.show_pos_coefficients, hcond.1, hcond.2] at hcs
      exact ⟨Nat.pos_of_ne_zero hcond.2, hcs.symm⟩

/-- C7, witness: the freshly initialized state has no data, and the request
is refused. -/
theorem show_pos_coefficients_no_data_witness :
    LemmaAnalyzerApp.show_pos_coefficients exAppEmpty = none :=
  (show_pos_coefficients_no_data_iff exAppEmpty).1.mpr (Or.inl rfl)

/-- C9: the backend is chosen exactly once at startup — a failed Stanza
initialization yields the dictionary backend (nlp = none) plus a warning
carrying the error detail; no sequence of analysis runs ever changes the
stored backend; and a session in the fallback state aggregates through the
dictionary branch. -/
theorem backend_frozen_after_init :
    (∀ (morph : String → MorphParse) (msg : String),
      (LemmaAnalyzerApp.init morph (StanzaInit.error msg)).1.nlp = none ∧
      (LemmaAnalyzerApp.init morph (StanzaInit.error msg)).2 =
        some ("Не удалось загрузить модель Stanza. Будет использован базовый анализ.\n" ++ msg)) ∧
    (∀ (st : AppState) (inputs : List String),
      (inputs.foldl (fun s i => (LemmaAnalyzerApp.analyze s i).1) st).nlp = st.nlp) ∧
    (∀ (st : AppState) (text : String),
      runAgg { st with nlp := none } text =
        (findWords text).foldl (dictStep st.morph) AggState.init) := by
  refine ⟨fun morph msg => ⟨rfl, rfl⟩, ?_, fun st text => rfl⟩
  intro st inputs
  induction inputs generalizing st with
  | nil => rfl
  | cons i rest ih =>
    exact (ih ((LemmaAnalyzerApp.analyze st i).1)).trans (analyze_nlp_eq st i)

/-- A concrete Stanza word with a missing lemma, for the C10 witness. -/
def exWord : StanzaWord := ⟨"Кот", none, some "NOUN"⟩

/-- C10: a Stanza word that passes the WORD_RE check but carries no lemma
(None or empty) is aggregated under its own lowercased surface text, so it
always produces a lemma entry. -/
theorem stanza_missing_lemma_falls_back_to_text (w : StanzaWord) (a : AggState)
    (h1 : wordFullmatch w.text = true)
    (h2 : w.lemma0 = none ∨ w.lemma0 = some "") :
    pyOr w.lemma0 w.text = w.text ∧
    lookupA (pyLower w.text) (stanzaStep a w).lemma_counts =
      some ((lookupA (pyLower w.text) a.lemma_counts).getD 0 + 1) := by
  have hor : pyOr w.lemma0 w.text = w.text := by
    rcases h2 with h | h <;> simp [pyOr, h]
  refine ⟨hor, ?_⟩
  simp only [stanzaStep, h1, if_true, hor]
  exact bump_lookup_self (pyLower w.text) a.lemma_counts

/-- C10, witness at a concrete lemma-less word. -/
theorem stanza_missing_lemma_witness :
    pyOr exWord.lemma0 exWord.text = exWord.text ∧
    lookupA (pyLower exWord.text) (stanzaStep AggState.init exWord).lemma_counts =
      some ((lookupA (pyLower exWord.text) AggState.init.lemma_counts).getD 0 + 1) :=
  stanza_missing_lemma_falls_back_to_text exWord AggState.init (by decide) (Or.inl rfl)

/-- C3: every lemma entry of a completed run counts exactly the accepted
stream occurrences mapped to its lemma, and that count is at least the number
of distinct surface forms recorded for it. -/
theorem analyze_entry_count_correct (st : AppState) (input : String) (e : LemmaEntry)
    (h : (LemmaAnalyzerApp.analyze st input).2 = AnalyzeOutcome.completed)
    (he : e ∈ (LemmaAnalyzerApp.analyze st input).1.entries) :
    e.count = occCount (streamItems st (pyStrip input)) e.lemma0 ∧
    e.forms.length ≤ e.count := by
  have hne := analyze_completed_strip_ne st input h
  rw [analyze_of_strip_ne st input hne] at he
  have he' : e ∈ finalizeEntries (runAgg st (pyStrip input)) := he
  obtain ⟨p, hp, hep⟩ := finalize_mem (runAgg st (pyStrip input)) e he'
  have hnodup : (((runAgg st (pyStrip input)).lemma_counts).map Prod.fst).Nodup := by
    rw [runAgg_eq]
    exact fold_nodup _ _ (by simp [AggState.init])
  have hlook : lookupA p.1 (runAgg st (pyStrip input)).lemma_counts = some p.2 :=
    lookupA_of_mem_nodup _ p hp hnodup
  have hcount : p.2 = occCount (streamItems st (pyStrip input)) p.1 := by
    have hfc := fold_count (streamItems st (pyStrip input)) AggState.init p.1
    rw [← runAgg_eq, hlook] at hfc
    simpa [AggState.init, lookupA] using hfc
  have hlen : ((lookupA p.1 (runAgg st (pyStrip input)).lemma_forms).getD []).length ≤ p.2 := by
    have hinv := fold_lenLe (streamItems st (pyStrip input)) AggState.init
      (by intro lem; simp [AggState.init, lookupA]) p.1
    rw [← runAgg_eq, hlook] at hinv
    simpa using hinv
  subst hep
  exact ⟨hcount, hlen⟩

/-- A concrete entry of the "Кот и кот" run, for the C3 and C4 witnesses. -/
def exEntry : LemmaEntry := ⟨"кот", 2, [("кот", "Существительное")]⟩

/-- C3, witness at a concrete run containing a repeated token. -/
theorem analyze_entry_count_correct_witness :
    (LemmaAnalyzerApp.analyze exApp "Кот и кот").2 = AnalyzeOutcome.completed ∧
    exEntry ∈ (LemmaAnalyzerApp.analyze exApp "Кот и кот").1.entries ∧
    (exEntry.count = occCount (streamItems exApp (pyStrip "Кот и кот")) exEntry.lemma0 ∧
      exEntry.forms.length ≤ exEntry.count) :=
  ⟨by decide, by decide,
   analyze_entry_count_correct exApp "Кот и кот" exEntry (by decide) (by decide)⟩

/-- C4: the POS label an entry stores for a surface form is the label of the
first stream occurrence of that form under that lemma — lookupA returns
exactly the first matching occurrence's label, so later occurrences, however
tagged, leave it unchanged. -/
theorem analyze_forms_first_seen (st : AppState) (input : String) (e : LemmaEntry)
    (form : String)
    (h : (LemmaAnalyzerApp.analyze st input).2 = AnalyzeOutcome.completed)
    (he : e ∈ (LemmaAnalyzerApp.analyze st input).1.entries) :
    lookupA form e.forms = firstPos (streamItems st (pyStrip input)) e.lemma0 form := by
  have hne := analyze_completed_strip_ne st input h
  rw [analyze_of_strip_ne st input hne] at he
  have he' : e ∈ finalizeEntries (runAgg st (pyStrip input)) := he
  obtain ⟨p, hp, hep⟩ := finalize_mem (runAgg st (pyStrip input)) e he'
  subst hep
  show lookupA form ((lookupA p.1 (runAgg st (pyStrip input)).lemma_forms).getD []) =
    firstPos (streamItems st (pyStrip input)) p.1 form
  have hfp := fold_firstPos (streamItems st (pyStrip input)) AggState.init p.1 form
  rw [← runAgg_eq] at hfp
  simpa [AggState.init, lookupA, optOr] using hfp

/-- C4, witness. -/
theorem analyze_forms_first_seen_witness :
    (LemmaAnalyzerApp.analyze exApp "Кот и кот").2 = AnalyzeOutcome.completed ∧
    exEntry ∈ (LemmaAnalyzerApp.analyze exApp "Кот и кот").1.entries ∧
    lookupA "кот" exEntry.forms =
      firstPos (streamItems exApp (pyStrip "Кот и кот")) exEntry.lemma0 "кот" :=
  ⟨by decide, by decide,
   analyze_forms_first_seen exApp "Кот и кот" exEntry "кот" (by decide) (by decide)⟩

theorem fold_stanza_filter (ws : List StanzaWord) (a : AggState) :
    ws.foldl stanzaStep a =
      (ws.filter (fun w => wordFullmatch w.text)).foldl stanzaStep a := by
  induction ws generalizing a with
  | nil => rfl
  | cons w rest ih =>
    by_cases h : wordFullmatch w.text
    · simp [List.foldl_cons, List.filter_cons, h, ih]
    · have hw : stanzaStep a w = a := by simp [stanzaStep, h]
      simp [List.foldl_cons, List.filter_cons, h, ih, hw]

/-- C6: with the statistical backend active, a word the pipeline emits whose
text fails WORD_RE contributes to nothing: removing all such words from the
pipeline output leaves the produced entries, the POS summary, and the total
unchanged. -/
theorem analyze_stanza_discards_nonmatching (st : AppState)
    (pipe : String → List StanzaWord) (input : String) :
    (LemmaAnalyzerApp.analyze { st with nlp := some pipe } input).1.entries =
      (LemmaAnalyzerApp.analyze
        { st with nlp := some (fun t => (pipe t).filter (fun w => wordFullmatch w.text)) }
        input).1.entries ∧
    (LemmaAnalyzerApp.analyze { st with nlp := some pipe } input).1.pos_counts =
      (LemmaAnalyzerApp.analyze
        { st with nlp := some (fun t => (pipe t).filter (fun w => wordFullmatch w.text)) }
        input).1.pos_counts ∧
    (LemmaAnalyzerApp.analyze { st with nlp := some pipe } input).1.total_words =
      (LemmaAnalyzerApp.analyze
        { st with nlp := some (fun t => (pipe t).filter (fun w => wordFullmatch w.text)) }
        input).1.total_words := by
  by_cases h : pyStrip input = ""
  · rw [analyze_of_strip_empty _ _ h, analyze_of_strip_empty _ _ h]
    exact ⟨rfl, rfl, rfl⟩
  · rw [analyze_of_strip_ne _ _ h, analyze_of_strip_ne _ _ h]
    have hagg : runAgg { st with nlp := some pipe } (pyStrip input) =
        runAgg { st with nlp := some (fun t => (pipe t).filter (fun w => wordFullmatch w.text)) }
          (pyStrip input) := by
      show (pipe (pyStrip input)).foldl stanzaStep AggState.init =
        ((pipe (pyStrip input)).filter (fun w => wordFullmatch w.text)).foldl
          stanzaStep AggState.init
      exact fold_stanza_filter (pipe (pyStrip input)) AggState.init
    exact ⟨by rw [hagg], by rw [hagg], by rw [hagg]⟩

theorem sum_map_div (l : List (String × Nat)) (T : ℚ) :
    (l.map (fun p => (p.2 : ℚ) / T)).sum = (l.map (fun p => ((p.2 : Nat) : ℚ))).sum / T := by
  induction l with
  | nil => simp
  | cons p ps ih => simp [ih, add_div]

theorem sum_map_cast (l : List (String × Nat)) :
    (l.map (fun p => ((p.2 : Nat) : ℚ))).sum = ((valsSum l : Nat) : ℚ) := by
  induction l with
  | nil => simp [valsSum]
  | cons p ps ih => simp [valsSum_cons, ih]

theorem mem_le_valsSum (l : List (String × Nat)) (p : String × Nat) (h : p ∈ l) :
    p.2 ≤ valsSum l := by
  induction l with
  | nil => cases h
  | cons q qs ih =>
    rcases List.mem_cons.mp h with h1 | h1
    · subst h1; rw [valsSum_cons]; omega
    · rw [valsSum_cons]; have := ih h1; omega

theorem analyze_pos_vals_eq_total (st : AppState) (input : String)
    (h : ¬ pyStrip input = "") :
    valsSum (LemmaAnalyzerApp.analyze st input).1.pos_counts =
      (LemmaAnalyzerApp.analyze st input).1.total_words := by
  rw [analyze_of_strip_ne st input h]
  show valsSum (runAgg st (pyStrip input)).pos_counts =
    (runAgg st (pyStrip input)).total_words
  rw [runAgg_eq, fold_pos_vals, fold_total]
  rfl

theorem analyze_pos_counts_pos (st : AppState) (input : String)
    (h : ¬ pyStrip input = "") :
    ∀ p ∈ (LemmaAnalyzerApp.analyze st input).1.pos_counts, 0 < p.2 := by
  rw [analyze_of_strip_ne st input h]
  show ∀ p ∈ (runAgg st (pyStrip input)).pos_counts, 0 < p.2
  rw [runAgg_eq]
  exact fold_pos_pos _ _ (by intro p hp; cases hp)

/-- C8: after a completed run with a positive total, the coefficient table is
produced; every summary pair maps into it as count / total, each such
coefficient lies in (0, 1], and the coefficients sum to exactly 1 (rationals
model the claim's floating-point arithmetic, so "up to rounding" becomes
exact equality). -/
theorem coefficients_in_unit_interval_sum_one (st : AppState) (input : String)
    (h : (LemmaAnalyzerApp.analyze st input).2 = AnalyzeOutcome.completed)
    (hpos : 0 < (LemmaAnalyzerApp.analyze st input).1.total_words) :
    ∃ cs, LemmaAnalyzerApp.show_pos_coefficients (LemmaAnalyzerApp.analyze st input).1 =
        some cs ∧
      (∀ p ∈ (LemmaAnalyzerApp.analyze st input).1.pos_counts,
        (p.1, (p.2 : ℚ) / (((LemmaAnalyzerApp.analyze st input).1.total_words : Nat) : ℚ)) ∈ cs ∧
        0 < (p.2 : ℚ) / (((LemmaAnalyzerApp.analyze st input).1.total_words : Nat) : ℚ) ∧
        (p.2 : ℚ) / (((LemmaAnalyzerApp.analyze st input).1.total_words : Nat) : ℚ) ≤ 1) ∧
      (cs.map Prod.snd).sum = 1 := by
  have hne := analyze_completed_strip_ne st input h
  have hsum := analyze_pos_vals_eq_total st input hne
  have hpp := analyze_pos_counts_pos st input hne
  have hT : ¬ (LemmaAnalyzerApp.analyze st input).1.total_words = 0 :=
    Nat.pos_iff_ne_zero.mp hpos
  have hnonempty : ¬ (LemmaAnalyzerApp.analyze st input).1.pos_counts = [] := by
    intro hempty
    rw [hempty] at hsum
    simp [valsSum] at hsum
    omega
  refine ⟨(LemmaAnalyzerApp.analyze st input).1.pos_counts.map
      (fun p => (p.1,
        (p.2 : ℚ) / (((LemmaAnalyzerApp.analyze st input).1.total_words : Nat) : ℚ))),
    ?_, ?_, ?_⟩
  · simp [LemmaAnalyzerApp.show_pos_coefficients, hnonempty, hT]
  · intro p hp
    refine ⟨List.mem_map_of_mem _ hp, ?_, ?_⟩
    · apply div_pos
      · exact_mod_cast hpp p hp
      · exact_mod_cast hpos
    · rw [div_le_one (by exact_mod_cast hpos)]
      exact_mod_cast (mem_le_valsSum _ p hp).trans_eq hsum
  · rw [List.map_map]
    have hcomp : (Prod.snd ∘ fun p : String × Nat =>
        (p.1, (p.2 : ℚ) / (((LemmaAnalyzerApp.analyze st input).1.total_words : Nat) : ℚ))) =
        fun p : String × Nat =>
          (p.2 : ℚ) / (((LemmaAnalyzerApp.analyze st input).1.total_words : Nat) : ℚ) := rfl
    rw [hcomp, sum_map_div, sum_map_cast, hsum]
    exact div_self (by exact_mod_cast hT)

/-- C8, witness at a concrete three-token run. -/
theorem coefficients_in_unit_interval_sum_one_witness :
    (LemmaAnalyzerApp.analyze exApp "Кот и кот").2 = AnalyzeOutcome.completed ∧
    0 < (LemmaAnalyzerApp.analyze exApp "Кот и кот").1.total_words ∧
    (∃ cs, LemmaAnalyzerApp.show_pos_coefficients (LemmaAnalyzerApp.analyze exApp "Кот и кот").1 =
        some cs ∧
      (∀ p ∈ (LemmaAnalyzerApp.analyze exApp "Кот и кот").1.pos_counts,
        (p.1, (p.2 : ℚ) / (((LemmaAnalyzerApp.analyze exApp "Кот и кот").1.total_words : Nat) : ℚ)) ∈ cs ∧
        0 < (p.2 : ℚ) / (((LemmaAnalyzerApp.analyze exApp "Кот и кот").1.total_words : Nat) : ℚ) ∧
        (p.2 : ℚ) / (((LemmaAnalyzerApp.analyze exApp "Кот и кот").1.total_words : Nat) : ℚ) ≤ 1) ∧
      (cs.map Prod.snd).sum = 1) :=
  ⟨by decide, by decide,
   coefficients_in_unit_interval_sum_one exApp "Кот и кот" (by decide) (by decide)⟩
